import Mathlib

/-!
Bitmask: a verification development for `bitmask.h`.

The C header works on `uint64_t` masks and `uint8_t` bit indices.  Here a
machine integer is a natural number; every place where the C arithmetic can
leave the 64-bit (or 8-bit) range is reduced with an explicit `% 2 ^ 64`
(or `% 256`).  A function that writes through a `uint64_t*` is a function
from the old mask to the new mask.
-/

namespace Bitmask

/-! ## Machine arithmetic -/

/-- The constant `BITMASK64_ALL`, `(uint64_t)0xFFFFFFFFFFFFFFFF`. -/
def BITMASK64_ALL : Nat := 0xFFFFFFFFFFFFFFFF

/-- The constant `BITMASK_INVALID_INDEX`, `(uint8_t)64`. -/
def BITMASK_INVALID_INDEX : Nat := 64

/-- Left shift `x << n` on `uint64_t`: the bits pushed past position 63 are
dropped.  C defines the shift for `n < 64` only; for a larger count the model
takes the value of the mathematical shift, which is `0`.  That value is a
convention of the model, not a behaviour of the code. -/
def shl64 (x n : Nat) : Nat := (x <<< n) % 2 ^ 64

/-- Right shift `x >> n` on `uint64_t`.  C defines the shift for `n < 64`
only; for a larger count the model takes the value of the mathematical
shift, which is `0` on a 64-bit operand.  That value is a convention of the
model, not a behaviour of the code. -/
def shr64 (x n : Nat) : Nat := x >>> n

/-- Subtraction `x - y` on `uint64_t`, wrapping modulo `2 ^ 64`. -/
def sub64 (x y : Nat) : Nat := (x + (2 ^ 64 - y % 2 ^ 64)) % 2 ^ 64

/-- Addition `x + y` on `uint64_t`, wrapping modulo `2 ^ 64`. -/
def add64 (x y : Nat) : Nat := (x + y) % 2 ^ 64

/-- Multiplication `x * y` on `uint64_t`, wrapping modulo `2 ^ 64`. -/
def mul64 (x y : Nat) : Nat := (x * y) % 2 ^ 64

/-- Bitwise complement `~x` on `uint64_t`. -/
def not64 (x : Nat) : Nat := BITMASK64_ALL ^^^ (x % 2 ^ 64)

/-- The macro `BIT(n)`, `(uint64_t)1 << (n)`. -/
def BIT (n : Nat) : Nat := shl64 1 n

/-! ## Core bit operations -/

/-- The function `bit_set`: the mask after `*mask |= BIT(bit)`, unchanged
for an index of 64 or more. -/
def bit_set (mask bit : Nat) : Nat :=
  if bit < 64 then mask ||| BIT bit else mask

/-- The function `bit_clear`: the mask after `*mask &= ~BIT(bit)`, unchanged
for an index of 64 or more. -/
def bit_clear (mask bit : Nat) : Nat :=
  if bit < 64 then mask &&& not64 (BIT bit) else mask

/-- The function `bit_toggle`: the mask after `*mask ^= BIT(bit)`, unchanged
for an index of 64 or more. -/
def bit_toggle (mask bit : Nat) : Nat :=
  if bit < 64 then mask ^^^ BIT bit else mask

/-- The function `bit_check`: `false` for an index of 64 or more, otherwise
whether `(mask >> bit) & 1` is nonzero. -/
def bit_check (mask bit : Nat) : Bool :=
  if bit ≥ 64 then false
  else decide ((shr64 mask bit) &&& 1 ≠ 0)

/-- The value of the expression `end - start + 1` of `bitmask_make_mask`
after the clamp of `end`, in C's `int` arithmetic, before the cast to
`uint8_t`. -/
def make_mask_width (start end_ : Nat) : Int :=
  let end_ := if end_ ≥ 63 then 63 else end_
  (end_ : Int) - (start : Int) + 1

/-- The function `bitmask_make_mask`. -/
def bitmask_make_mask (start end_ : Nat) : Nat :=
  if start > end_ ∨ start ≥ 64 then 0
  else
    let width : Nat := (make_mask_width start end_ % 256).toNat
    if width = 64 then BITMASK64_ALL
    else shl64 (sub64 (shl64 1 width) 1) start

/-! ## Range operations -/

/-- The function `bits_set_range`: the mask after `*mask |= range`. -/
def bits_set_range (mask start end_ : Nat) : Nat :=
  mask ||| bitmask_make_mask start end_

/-- The function `bits_clear_range`: the mask after `*mask &= ~range`. -/
def bits_clear_range (mask start end_ : Nat) : Nat :=
  mask &&& not64 (bitmask_make_mask start end_)

/-- The function `bits_get_range`. -/
def bits_get_range (mask start end_ : Nat) : Nat :=
  let range_mask := bitmask_make_mask start end_
  shr64 (mask &&& range_mask) start

/-- The function `bits_write_range`: the mask after the call. -/
def bits_write_range (mask start end_ value : Nat) : Nat :=
  let range_mask := bitmask_make_mask start end_
  let clear_mask := not64 range_mask
  let write_mask := shl64 value start &&& range_mask
  (mask &&& clear_mask) ||| write_mask

/-! ## Scanning -/

/-- The function `bit_scan_forward`: binary narrowing towards the least
significant set bit.  The index never exceeds 63, so its `uint8_t` never
wraps. -/
def bit_scan_forward (mask : Nat) : Nat :=
  if mask = 0 then 64
  else
    let idx := 0
    let (idx, mask) :=
      if mask &&& 0xFFFFFFFF = 0 then (idx + 32, shr64 mask 32) else (idx, mask)
    let (idx, mask) :=
      if mask &&& 0xFFFF = 0 then (idx + 16, shr64 mask 16) else (idx, mask)
    let (idx, mask) :=
      if mask &&& 0xFF = 0 then (idx + 8, shr64 mask 8) else (idx, mask)
    let (idx, mask) :=
      if mask &&& 0xF = 0 then (idx + 4, shr64 mask 4) else (idx, mask)
    let (idx, mask) :=
      if mask &&& 0x3 = 0 then (idx + 2, shr64 mask 2) else (idx, mask)
    let idx := if mask &&& 0x1 = 0 then idx + 1 else idx
    idx

/-- The function `bit_scan_reverse`: binary narrowing towards the most
significant set bit.  The index never exceeds 63, so its `uint8_t` never
wraps. -/
def bit_scan_reverse (mask : Nat) : Nat :=
  if mask = 0 then 64
  else
    let idx := 0
    let tmp := shr64 mask 32
    let (idx, mask) := if tmp ≠ 0 then (idx + 32, tmp) else (idx, mask)
    let tmp := shr64 mask 16
    let (idx, mask) := if tmp ≠ 0 then (idx + 16, tmp) else (idx, mask)
    let tmp := shr64 mask 8
    let (idx, mask) := if tmp ≠ 0 then (idx + 8, tmp) else (idx, mask)
    let tmp := shr64 mask 4
    let (idx, mask) := if tmp ≠ 0 then (idx + 4, tmp) else (idx, mask)
    let tmp := shr64 mask 2
    let (idx, mask) := if tmp ≠ 0 then (idx + 2, tmp) else (idx, mask)
    let tmp := shr64 mask 1
    let idx := if tmp ≠ 0 then idx + 1 else idx
    idx

/-- One narrowing step of `bit_scan_forward` with a window of `k` bits, on
the pair of the running index and the running mask: the body of each of its
`if ((mask & (2^k - 1)) == 0) { idx += k; mask >>= k; }` statements. -/
def fwd_step (k : Nat) (s : Nat × Nat) : Nat × Nat :=
  if s.2 &&& (2 ^ k - 1) = 0 then (s.1 + k, shr64 s.2 k) else s

/-- One narrowing step of `bit_scan_reverse` with a window of `k` bits: the
body of each of its `tmp = mask >> k; if (tmp) { idx += k; mask = tmp; }`
statements. -/
def rev_step (k : Nat) (s : Nat × Nat) : Nat × Nat :=
  if shr64 s.2 k ≠ 0 then (s.1 + k, shr64 s.2 k) else s

/-- The function `popcount`: the parallel bit-summing of the source, every
intermediate value a `uint64_t`, the result narrowed to `uint8_t`. -/
def popcount (mask : Nat) : Nat :=
  let mask := sub64 mask (shr64 mask 1 &&& 0x5555555555555555)
  let mask := add64 (mask &&& 0x3333333333333333) (shr64 mask 2 &&& 0x3333333333333333)
  let mask := add64 mask (shr64 mask 4) &&& 0x0F0F0F0F0F0F0F0F
  let mask := shr64 (mul64 mask 0x0101010101010101) 56
  mask % 256

/-- The per-bit count that `popcount` is compared with: the number of
positions `i` in 0..63 whose bit is set in `m`. -/
def naive_popcount (m : Nat) : Nat :=
  ((Finset.range 64).filter (fun i => m.testBit i = true)).card

/-! ## Bitmask structure operations -/

/-- The type `bitmask64_t`: a record with the one field `bits`. -/
structure bitmask64_t where
  bits : Nat
  deriving DecidableEq, Repr

/-- The function `bitmask64_init`: the record after `mask->bits = 0`. -/
def bitmask64_init (mask : bitmask64_t) : bitmask64_t :=
  { mask with bits := 0 }

/-- The function `bitmask64_set`: the record after `bit_set(&mask->bits, bit)`. -/
def bitmask64_set (mask : bitmask64_t) (bit : Nat) : bitmask64_t :=
  { mask with bits := bit_set mask.bits bit }

/-- The function `bitmask64_check`. -/
def bitmask64_check (mask : bitmask64_t) (bit : Nat) : Bool :=
  bit_check mask.bits bit

/-! ## Utility functions -/

/-- The function `bitmask_merge`. -/
def bitmask_merge (mask1 mask2 : Nat) : Nat := mask1 ||| mask2

/-- The function `bitmask_intersect`. -/
def bitmask_intersect (mask1 mask2 : Nat) : Nat := mask1 &&& mask2

/-- The function `bitmask_difference`. -/
def bitmask_difference (mask1 mask2 : Nat) : Nat := mask1 &&& not64 mask2

/-- The function `bitmask_is_subset`. -/
def bitmask_is_subset (subset superset : Nat) : Bool :=
  decide (subset &&& superset = subset)

/-- The function `bitmask_is_empty`. -/
def bitmask_is_empty (mask : Nat) : Bool := decide (mask = 0)

/-- The function `bitmask_is_full`. -/
def bitmask_is_full (mask : Nat) : Bool := decide (mask = BITMASK64_ALL)

/-! ## Iteration -/

/-- The update `__iter_mask &= __iter_mask - 1` of `BITMASK_FOREACH_SET`. -/
def foreach_step (iter_mask : Nat) : Nat :=
  iter_mask &&& sub64 iter_mask 1

/-- The loop of `BITMASK_FOREACH_SET`: the list of the values `bit_var` takes,
in the order the loop body receives them.  While the working mask is nonzero,
the loop takes `bit_scan_forward` of it, replaces it by `foreach_step` of it
and runs the body. -/
def foreach_set (iter_mask : Nat) : List Nat :=
  if iter_mask = 0 then []
  else bit_scan_forward iter_mask :: foreach_set (foreach_step iter_mask)
termination_by iter_mask
decreasing_by
  rename_i h
  unfold foreach_step sub64
  apply Nat.lt_of_le_of_lt Nat.and_le_right
  omega

/-! ## Byte lanes, for the analysis of `popcount` -/

/-- The number whose base-256 digits, least significant first, are `bs`. -/
def of_bytes : List Nat → Nat
  | [] => 0
  | b :: bs => b + 256 * of_bytes bs

/-- The eight bytes of a 64-bit value, least significant first. -/
def bytes8 (m : Nat) : List Nat :=
  [m % 256, m / 256 % 256, m / 65536 % 256, m / 16777216 % 256, m / 4294967296 % 256,
    m / 1099511627776 % 256, m / 281474976710656 % 256, m / 72057594037927936 % 256]

/-- What the first line of `popcount` leaves in a byte lane holding `b`: the
four 2-bit counts. -/
def byte_pairs (b : Nat) : Nat := b - (b >>> 1 &&& 0x55)

/-- What the second line of `popcount` leaves in a byte lane: the two 4-bit
counts. -/
def byte_nibbles (b : Nat) : Nat :=
  (byte_pairs b &&& 0x33) + (byte_pairs b >>> 2 &&& 0x33)

/-- What the third line of `popcount` leaves in a byte lane: the count of the
byte. -/
def byte_count (b : Nat) : Nat := byte_nibbles b % 16 + byte_nibbles b / 16

/-! ## Bit-level lemmas on the machine arithmetic -/

theorem sub64_of_le (x y : Nat) (hy : y ≤ x) (hx : x < 2 ^ 64) : sub64 x y = x - y := by
  unfold sub64
  omega

theorem shl64_one (w : Nat) (hw : w < 64) : shl64 1 w = 2 ^ w := by
  unfold shl64
  rw [Nat.one_shiftLeft]
  exact Nat.mod_eq_of_lt (Nat.pow_lt_pow_right (by decide) hw)

theorem testBit_shl64 (x n i : Nat) :
    (shl64 x n).testBit i = (decide (i < 64) && (decide (n ≤ i) && x.testBit (i - n))) := by
  unfold shl64
  rw [Nat.testBit_mod_two_pow, Nat.testBit_shiftLeft]

theorem testBit_shr64 (x n i : Nat) : (shr64 x n).testBit i = x.testBit (n + i) := by
  unfold shr64
  rw [Nat.testBit_shiftRight]

theorem testBit_all (i : Nat) : BITMASK64_ALL.testBit i = decide (i < 64) := by
  have h : BITMASK64_ALL = 2 ^ 64 - 1 := by decide
  rw [h, Nat.testBit_two_pow_sub_one]

theorem testBit_not64 (x i : Nat) :
    (not64 x).testBit i = (decide (i < 64) && !x.testBit i) := by
  unfold not64
  rw [Nat.testBit_xor, testBit_all, Nat.testBit_mod_two_pow]
  by_cases h : i < 64 <;> simp [h]

theorem make_mask_width_eq (start end_ : Nat) (h : start ≤ end_) (hs : start < 64) :
    make_mask_width start end_ = ((min end_ 63 - start + 1 : Nat) : Int) := by
  unfold make_mask_width
  by_cases he : end_ ≥ 63
  · simp only [he, if_true]; omega
  · simp only [he, if_false]; omega

theorem testBit_make_mask (start end_ i : Nat) :
    (bitmask_make_mask start end_).testBit i
      = decide (start ≤ i ∧ i ≤ end_ ∧ i < 64) := by
  unfold bitmask_make_mask
  by_cases hg : start > end_ ∨ start ≥ 64
  · rw [if_pos hg, Nat.zero_testBit]
    symm; rw [decide_eq_false_iff_not]; omega
  · rw [if_neg hg]
    have hse : start ≤ end_ := by omega
    have hs : start < 64 := by omega
    have hw : (make_mask_width start end_ % 256).toNat = min end_ 63 - start + 1 := by
      rw [make_mask_width_eq start end_ hse hs]; omega
    simp only [hw]
    by_cases h64 : min end_ 63 - start + 1 = 64
    · rw [if_pos h64, testBit_all]
      congr 1; apply propext; constructor <;> intro h <;> omega
    · rw [if_neg h64]
      have hlt : min end_ 63 - start + 1 < 64 := by omega
      rw [shl64_one _ hlt, sub64_of_le _ _ Nat.one_le_two_pow
        (Nat.pow_lt_pow_right (by decide) hlt), testBit_shl64, Nat.testBit_two_pow_sub_one]
      by_cases h1 : i < 64 <;> by_cases h2 : start ≤ i <;> by_cases h3 : i ≤ end_ <;>
        simp [h1, h2, h3] <;> omega

theorem testBit_write_range (mask start end_ value i : Nat) :
    (bits_write_range mask start end_ value).testBit i
      = if start ≤ i ∧ i ≤ end_ ∧ i < 64 then value.testBit (i - start)
        else (decide (i < 64) && mask.testBit i) := by
  unfold bits_write_range
  simp only [Nat.testBit_or, Nat.testBit_and, testBit_not64, testBit_shl64, testBit_make_mask]
  by_cases h : start ≤ i ∧ i ≤ end_ ∧ i < 64
  · rw [if_pos h]
    obtain ⟨h1, h2, h3⟩ := h
    simp [h1, h2, h3]
  · rw [if_neg h]
    simp only [h, decide_False, Bool.not_false, Bool.and_true, Bool.and_false, Bool.or_false]
    rw [Bool.and_comm]

theorem testBit_get_range (mask start end_ j : Nat) :
    (bits_get_range mask start end_).testBit j
      = (mask.testBit (start + j) && decide (start + j ≤ end_ ∧ start + j < 64)) := by
  unfold bits_get_range
  simp only [testBit_shr64, Nat.testBit_and, testBit_make_mask]
  congr 2
  apply propext
  constructor <;> intro h <;> omega

theorem bit_check_eq_testBit (mask bit : Nat) :
    bit_check mask bit = (decide (bit < 64) && mask.testBit bit) := by
  unfold bit_check shr64
  by_cases h : bit ≥ 64
  · rw [if_pos h]
    have : ¬ bit < 64 := by omega
    simp [this]
  · rw [if_neg h]
    have h2 : bit < 64 := by omega
    simp only [h2, decide_True, Bool.true_and, Nat.testBit, Nat.and_comm]
    rcases Nat.mod_two_eq_zero_or_one (mask >>> bit) with h0 | h1
    · simp [Nat.and_one_is_mod, h0]
    · simp [Nat.and_one_is_mod, h1]

/-! ## Range mask construction -/

/-- C1: for every `start` and `end` (all naturals, so in particular all 8-bit
values) and every bit position `i < 64`, bit `i` of
`bitmask_make_mask start end` is set exactly when `start ≤ i ≤ end`; the
result has no bit at position 64 or above, so it is the mask of the inclusive
range intersected with the positions 0..63. -/
theorem make_mask_bit_iff (start end_ i : Nat) (hi : i < 64) :
    ((bitmask_make_mask start end_).testBit i = true ↔ (start ≤ i ∧ i ≤ end_))
      ∧ bitmask_make_mask start end_ < 2 ^ 64 := by
  constructor
  · rw [testBit_make_mask, decide_eq_true_iff]
    constructor
    · intro h; exact ⟨h.1, h.2.1⟩
    · intro h; exact ⟨h.1, h.2, hi⟩
  · apply Nat.lt_pow_two_of_testBit
    intro j hj
    rw [testBit_make_mask, decide_eq_false_iff_not]
    omega

theorem make_mask_bit_iff_witness :
    4 < 64 ∧ (((bitmask_make_mask 3 5).testBit 4 = true ↔ (3 ≤ 4 ∧ 4 ≤ 5))
      ∧ bitmask_make_mask 3 5 < 2 ^ 64) :=
  ⟨by decide, make_mask_bit_iff 3 5 4 (by decide)⟩

/-- C2: write/read round trip.  For every mask `m`, every range with
`start ≤ end ≤ 63` and every value `v`, reading the range back after
`bits_write_range m start end v` gives `v & widthMask`, where `widthMask`
has the low `end - start + 1` bits set (it is `BITMASK64_ALL` when the width
is 64); the result is `v` itself whenever `v` fits in the range width. -/
theorem write_get_round_trip (m start end_ v : Nat) (hse : start ≤ end_) (he : end_ ≤ 63) :
    bits_get_range (bits_write_range m start end_ v) start end_
        = v &&& (2 ^ (end_ - start + 1) - 1)
      ∧ (end_ - start + 1 = 64 → 2 ^ (end_ - start + 1) - 1 = BITMASK64_ALL)
      ∧ (v < 2 ^ (end_ - start + 1) →
          bits_get_range (bits_write_range m start end_ v) start end_ = v) := by
  have key : bits_get_range (bits_write_range m start end_ v) start end_
      = v &&& (2 ^ (end_ - start + 1) - 1) := by
    apply Nat.eq_of_testBit_eq
    intro j
    rw [testBit_get_range, testBit_write_range, Nat.testBit_and, Nat.testBit_two_pow_sub_one]
    by_cases h : start + j ≤ end_
    · have h1 : start ≤ start + j ∧ start + j ≤ end_ ∧ start + j < 64 :=
        ⟨Nat.le_add_right _ _, h, by omega⟩
      have h2 : start + j ≤ end_ ∧ start + j < 64 := ⟨h, by omega⟩
      have h3 : j < end_ - start + 1 := by omega
      rw [if_pos h1, Nat.add_sub_cancel_left]
      simp [h2, h3]
    · have h2 : ¬ (start + j ≤ end_ ∧ start + j < 64) := fun c => h c.1
      have h3 : ¬ j < end_ - start + 1 := by omega
      simp [h2, h3]
  refine ⟨key, ?_, ?_⟩
  · intro hw
    rw [hw]
    decide
  · intro hv
    rw [key, Nat.and_pow_two_sub_one_eq_mod]
    exact Nat.mod_eq_of_lt hv

theorem write_get_round_trip_witness :
    (4 ≤ 7 ∧ 7 ≤ 63) ∧
      (bits_get_range (bits_write_range 0xFFFF 4 7 0xAB) 4 7 = 0xAB &&& (2 ^ (7 - 4 + 1) - 1)
        ∧ (7 - 4 + 1 = 64 → 2 ^ (7 - 4 + 1) - 1 = BITMASK64_ALL)
        ∧ (0xAB < 2 ^ (7 - 4 + 1) →
            bits_get_range (bits_write_range 0xFFFF 4 7 0xAB) 4 7 = 0xAB)) :=
  ⟨by decide, write_get_round_trip 0xFFFF 4 7 0xAB (by decide) (by decide)⟩

/-- C3: end clamping and the width-64 case.  For every `start < 64` and every
`end ≥ 63` (the values 64..255 included), `bitmask_make_mask start end`
equals `bitmask_make_mask start 63`, which is the all-ones value shifted left
by `start` within 64 bits; `bitmask_make_mask 0 63` is `0xFFFFFFFFFFFFFFFF`;
and the width `end - start + 1` lies in 1..64, so its narrowing to 8 bits
does not wrap. -/
theorem make_mask_end_clamp (start end_ : Nat) (hs : start < 64) (he : 63 ≤ end_) :
    bitmask_make_mask start end_ = bitmask_make_mask start 63
      ∧ bitmask_make_mask start 63 = shl64 BITMASK64_ALL start
      ∧ bitmask_make_mask 0 63 = 0xFFFFFFFFFFFFFFFF
      ∧ (1 ≤ make_mask_width start end_ ∧ make_mask_width start end_ ≤ 64
          ∧ make_mask_width start end_ % 256 = make_mask_width start end_) := by
  refine ⟨?_, ?_, ?_, ?_⟩
  · apply Nat.eq_of_testBit_eq
    intro i
    rw [testBit_make_mask, testBit_make_mask]
    congr 1
    apply propext
    constructor <;> intro h <;> omega
  · apply Nat.eq_of_testBit_eq
    intro i
    rw [testBit_make_mask, testBit_shl64, testBit_all]
    by_cases h1 : i < 64 <;> by_cases h2 : start ≤ i
    · have h3 : i - start < 64 := by omega
      have h4 : i ≤ 63 := by omega
      simp [h1, h2, h3, h4]
    · simp [h1, h2]
    · simp [h1, h2]
    · simp [h1, h2]
  · decide
  · rw [make_mask_width_eq start end_ (by omega) hs]
    omega

theorem make_mask_end_clamp_witness :
    (5 < 64 ∧ 63 ≤ 200) ∧
      (bitmask_make_mask 5 200 = bitmask_make_mask 5 63
        ∧ bitmask_make_mask 5 63 = shl64 BITMASK64_ALL 5
        ∧ bitmask_make_mask 0 63 = 0xFFFFFFFFFFFFFFFF
        ∧ (1 ≤ make_mask_width 5 200 ∧ make_mask_width 5 200 ≤ 64
            ∧ make_mask_width 5 200 % 256 = make_mask_width 5 200)) :=
  ⟨by decide, make_mask_end_clamp 5 200 (by decide) (by decide)⟩

/-- C4: for every `start` and `end` with `start > end` or `start ≥ 64`,
`bitmask_make_mask start end` returns 0. -/
theorem make_mask_invalid_zero (start end_ : Nat) (h : start > end_ ∨ start ≥ 64) :
    bitmask_make_mask start end_ = 0 := by
  unfold bitmask_make_mask
  rw [if_pos h]

theorem make_mask_invalid_zero_witness :
    (9 > 4 ∨ 9 ≥ 64) ∧ bitmask_make_mask 9 4 = 0 :=
  ⟨by decide, make_mask_invalid_zero 9 4 (by decide)⟩

/-! ## Range operations -/

/-- C6: `bits_get_range` returns the value of the range right-aligned at bit
0.  For every mask `m` and every range with `start ≤ end` and `start < 64`,
bit `j` of `bits_get_range m start end` is bit `start + j` of `m` when
`start + j ≤ min end 63` and is clear for every higher `j`; hence the result
is below `2 ^ width` for the width `min end 63 - start + 1`. -/
theorem get_range_right_aligned (m start end_ : Nat) (hse : start ≤ end_) (_hs : start < 64) :
    (∀ j, start + j ≤ min end_ 63 →
        (bits_get_range m start end_).testBit j = m.testBit (start + j))
      ∧ (∀ j, min end_ 63 < start + j → (bits_get_range m start end_).testBit j = false)
      ∧ bits_get_range m start end_ < 2 ^ (min end_ 63 - start + 1) := by
  have hi : ∀ j, min end_ 63 < start + j →
      (bits_get_range m start end_).testBit j = false := by
    intro j hj
    have h : ¬ (start + j ≤ end_ ∧ start + j < 64) := by omega
    rw [testBit_get_range]
    simp [h]
  refine ⟨?_, hi, ?_⟩
  · intro j hj
    have h : start + j ≤ end_ ∧ start + j < 64 := by omega
    rw [testBit_get_range]
    simp [h]
  · apply Nat.lt_pow_two_of_testBit
    intro j hj
    exact hi j (by omega)

theorem get_range_right_aligned_witness :
    (8 ≤ 15 ∧ 8 < 64) ∧
      ((∀ j, 8 + j ≤ min 15 63 →
          (bits_get_range 0xAB00 8 15).testBit j = (0xAB00).testBit (8 + j))
        ∧ (∀ j, min 15 63 < 8 + j → (bits_get_range 0xAB00 8 15).testBit j = false)
        ∧ bits_get_range 0xAB00 8 15 < 2 ^ (min 15 63 - 8 + 1)) :=
  ⟨by decide, get_range_right_aligned 0xAB00 8 15 (by decide) (by decide)⟩

theorem and_not64_zero (m : Nat) (hm : m < 2 ^ 64) : m &&& not64 0 = m := by
  apply Nat.eq_of_testBit_eq
  intro i
  rw [Nat.testBit_and, testBit_not64, Nat.zero_testBit]
  by_cases h : i < 64
  · simp [h]
  · have : m.testBit i = false :=
      Nat.testBit_lt_two_pow (Nat.lt_of_lt_of_le hm (Nat.pow_le_pow_right (by decide) (by omega)))
    simp [h, this]

/-- C8 (as stated, refuted): an `end` of 64 or more does not make the range
operations a no-op.  With `start = 0` and `end = 64` the pair has an
out-of-range bound, yet `bits_set_range` turns the mask 0 into all-ones and
`bits_get_range` of the all-ones mask returns all-ones, not 0. -/
theorem end_out_of_range_is_not_noop :
    (¬ (∀ m v start end_ : Nat, m < 2 ^ 64 → v < 2 ^ 64 → start < 256 → end_ < 256 →
        (start > end_ ∨ start ≥ 64 ∨ end_ ≥ 64) →
        bits_set_range m start end_ = m ∧ bits_clear_range m start end_ = m
          ∧ bits_write_range m start end_ v = m ∧ bits_get_range m start end_ = 0))
      ∧ bits_set_range 0 0 64 = 0xFFFFFFFFFFFFFFFF
      ∧ bits_get_range 0xFFFFFFFFFFFFFFFF 0 64 = 0xFFFFFFFFFFFFFFFF := by
  refine ⟨?_, by decide, by decide⟩
  intro h
  have h1 := (h 0 0 0 64 (by decide) (by decide) (by decide) (by decide) (by decide)).1
  revert h1
  decide

/-- C8 (amended): a pair with `start > end` or `start ≥ 64` degrades to a
no-op.  `bits_set_range` and `bits_clear_range` leave a 64-bit mask unchanged
on every such pair.  `bits_write_range` leaves it unchanged and
`bits_get_range` returns 0 on every such pair with `start < 64`, that is for
an inverted range whose shift count is one C defines.  Nothing is stated
about `bits_write_range` and `bits_get_range` at `start ≥ 64`, where the
source shifts by `start` with no guard. -/
theorem invalid_range_is_noop (m v start end_ : Nat) (hm : m < 2 ^ 64)
    (h : start > end_ ∨ start ≥ 64) :
    bits_set_range m start end_ = m ∧ bits_clear_range m start end_ = m
      ∧ (start < 64 →
          bits_write_range m start end_ v = m ∧ bits_get_range m start end_ = 0) := by
  have hz : bitmask_make_mask start end_ = 0 := by
    unfold bitmask_make_mask
    rw [if_pos h]
  refine ⟨?_, ?_, ?_⟩
  · unfold bits_set_range
    rw [hz, Nat.or_zero]
  · unfold bits_clear_range
    rw [hz, and_not64_zero m hm]
  · intro _
    unfold bits_write_range bits_get_range
    simp only [hz, and_not64_zero m hm, Nat.or_zero, Nat.and_zero]
    refine ⟨trivial, ?_⟩
    unfold shr64
    exact Nat.zero_shiftRight start

theorem invalid_range_is_noop_witness :
    (0xF0F0 < 2 ^ 64 ∧ (9 > 4 ∨ 9 ≥ 64) ∧ 9 < 64) ∧
      (bits_set_range 0xF0F0 9 4 = 0xF0F0 ∧ bits_clear_range 0xF0F0 9 4 = 0xF0F0
        ∧ bits_write_range 0xF0F0 9 4 0xAB = 0xF0F0 ∧ bits_get_range 0xF0F0 9 4 = 0) :=
  ⟨by decide,
    (invalid_range_is_noop 0xF0F0 0xAB 9 4 (by decide) (by decide)).1,
    (invalid_range_is_noop 0xF0F0 0xAB 9 4 (by decide) (by decide)).2.1,
    (invalid_range_is_noop 0xF0F0 0xAB 9 4 (by decide) (by decide)).2.2 (by decide)⟩

/-! ## Scanning -/

theorem bit_scan_forward_steps (m : Nat) (h : m ≠ 0) :
    bit_scan_forward m =
      (if (fwd_step 2 (fwd_step 4 (fwd_step 8 (fwd_step 16 (fwd_step 32 (0, m)))))).2 &&& 1 = 0
        then (fwd_step 2 (fwd_step 4 (fwd_step 8 (fwd_step 16 (fwd_step 32 (0, m)))))).1 + 1
        else (fwd_step 2 (fwd_step 4 (fwd_step 8 (fwd_step 16 (fwd_step 32 (0, m)))))).1) := by
  unfold bit_scan_forward
  rw [if_neg h]
  rfl

theorem bit_scan_reverse_steps (m : Nat) (h : m ≠ 0) :
    bit_scan_reverse m =
      (if shr64 (rev_step 2 (rev_step 4 (rev_step 8 (rev_step 16 (rev_step 32 (0, m)))))).2 1 ≠ 0
        then (rev_step 2 (rev_step 4 (rev_step 8 (rev_step 16 (rev_step 32 (0, m)))))).1 + 1
        else (rev_step 2 (rev_step 4 (rev_step 8 (rev_step 16 (rev_step 32 (0, m)))))).1) := by
  unfold bit_scan_reverse
  rw [if_neg h]
  rfl

theorem fwd_step_inv (k m : Nat) (s : Nat × Nat) (h1 : m = s.2 * 2 ^ s.1)
    (h2 : s.2 % 2 ^ (2 * k) ≠ 0) :
    m = (fwd_step k s).2 * 2 ^ (fwd_step k s).1 ∧ (fwd_step k s).2 % 2 ^ k ≠ 0 := by
  unfold fwd_step shr64
  rw [Nat.and_pow_two_sub_one_eq_mod, Nat.shiftRight_eq_div_pow]
  by_cases hc : s.2 % 2 ^ k = 0
  · rw [if_pos hc]
    have hd : s.2 = 2 ^ k * (s.2 / 2 ^ k) := by
      have := Nat.div_add_mod s.2 (2 ^ k)
      omega
    constructor
    · show m = s.2 / 2 ^ k * 2 ^ (s.1 + k)
      rw [h1, Nat.pow_add]
      nth_rewrite 1 [hd]
      ring
    · show s.2 / 2 ^ k % 2 ^ k ≠ 0
      intro hq
      apply h2
      have hq2 : s.2 / 2 ^ k = 2 ^ k * (s.2 / 2 ^ k / 2 ^ k) := by
        have := Nat.div_add_mod (s.2 / 2 ^ k) (2 ^ k)
        omega
      have : s.2 = 2 ^ (2 * k) * (s.2 / 2 ^ k / 2 ^ k) := by
        rw [two_mul, Nat.pow_add, Nat.mul_assoc, ← hq2, ← hd]
      rw [this]
      exact Nat.mul_mod_right _ _
  · rw [if_neg hc]
    exact ⟨h1, hc⟩

theorem rev_step_inv (k m : Nat) (s : Nat × Nat) (h1 : s.2 = m / 2 ^ s.1)
    (h2 : s.2 ≠ 0) (h3 : s.2 < 2 ^ (2 * k)) :
    (rev_step k s).2 = m / 2 ^ (rev_step k s).1 ∧ (rev_step k s).2 ≠ 0
      ∧ (rev_step k s).2 < 2 ^ k := by
  unfold rev_step shr64
  rw [Nat.shiftRight_eq_div_pow]
  by_cases hc : s.2 / 2 ^ k ≠ 0
  · rw [if_pos hc]
    refine ⟨?_, hc, ?_⟩
    · show s.2 / 2 ^ k = m / 2 ^ (s.1 + k)
      rw [h1, Nat.div_div_eq_div_mul, Nat.pow_add]
    · show s.2 / 2 ^ k < 2 ^ k
      apply Nat.div_lt_of_lt_mul
      rw [← Nat.pow_add, ← two_mul]
      exact h3
  · rw [if_neg hc]
    refine ⟨h1, h2, ?_⟩
    have hz : s.2 / 2 ^ k = 0 := by
      by_contra hne
      exact hc hne
    exact (Nat.div_eq_zero_iff (Nat.two_pow_pos k)).mp hz

theorem lsb_of_odd_mul (m r q : Nat) (hq : q % 2 = 1) (hm : m = 2 ^ r * q)
    (hlt : m < 2 ^ 64) :
    r < 64 ∧ bit_check m r = true ∧ ∀ j, j < r → bit_check m j = false := by
  have hr : r < 64 := by
    by_contra hge
    have h1 : 2 ^ 64 ≤ 2 ^ r := Nat.pow_le_pow_right (by decide) (by omega)
    have h2 : 2 ^ r * 1 ≤ 2 ^ r * q := Nat.mul_le_mul_left _ (by omega)
    omega
  refine ⟨hr, ?_, ?_⟩
  · rw [bit_check_eq_testBit, hm, Nat.testBit_mul_pow_two, Nat.sub_self, Nat.testBit_zero]
    simp [hr, hq]
  · intro j hj
    rw [bit_check_eq_testBit, hm, Nat.testBit_mul_pow_two]
    have : ¬ j ≥ r := by omega
    simp [this]

theorem msb_of_div_eq_one (m r : Nat) (h : m / 2 ^ r = 1) (hlt : m < 2 ^ 64) :
    r < 64 ∧ bit_check m r = true ∧ (∀ j, r < j → j < 64 → bit_check m j = false)
      ∧ 2 ^ r ≤ m ∧ m < 2 ^ (r + 1) := by
  have hdm := Nat.div_add_mod m (2 ^ r)
  have hml := Nat.mod_lt m (Nat.two_pow_pos r)
  rw [h] at hdm
  have hlo : 2 ^ r ≤ m := by omega
  have hhi : m < 2 ^ (r + 1) := by rw [Nat.pow_succ]; omega
  have hr : r < 64 := by
    by_contra hge
    have h1 : 2 ^ 64 ≤ 2 ^ r := Nat.pow_le_pow_right (by decide) (by omega)
    omega
  refine ⟨hr, ?_, ?_, hlo, hhi⟩
  · rw [bit_check_eq_testBit, Nat.testBit_to_div_mod, h]
    simp [hr]
  · intro j hj hj64
    rw [bit_check_eq_testBit]
    have : m.testBit j = false :=
      Nat.testBit_lt_two_pow (Nat.lt_of_lt_of_le hhi (Nat.pow_le_pow_right (by decide) hj))
    simp [this]

/-- C9: `bit_scan_forward` returns the index of the least-significant set
bit.  `bit_scan_forward 0 = 64`, and for every 64-bit mask `m ≠ 0` the result
`r` satisfies `r < 64`, `bit_check m r` is true and `bit_check m j` is false
for every `j < r`. -/
theorem bit_scan_forward_lowest (m : Nat) (hm : m < 2 ^ 64) :
    bit_scan_forward 0 = 64
      ∧ (m ≠ 0 →
          bit_scan_forward m < 64 ∧ bit_check m (bit_scan_forward m) = true
            ∧ ∀ j, j < bit_scan_forward m → bit_check m j = false) := by
  refine ⟨rfl, ?_⟩
  intro h0
  have i0 : m = ((0, m) : Nat × Nat).2 * 2 ^ ((0, m) : Nat × Nat).1 := by simp
  have j0 : ((0, m) : Nat × Nat).2 % 2 ^ (2 * 32) ≠ 0 := by
    show m % 2 ^ 64 ≠ 0
    rw [Nat.mod_eq_of_lt hm]
    exact h0
  obtain ⟨i1, j1⟩ := fwd_step_inv 32 m _ i0 j0
  obtain ⟨i2, j2⟩ := fwd_step_inv 16 m _ i1 j1
  obtain ⟨i3, j3⟩ := fwd_step_inv 8 m _ i2 j2
  obtain ⟨i4, j4⟩ := fwd_step_inv 4 m _ i3 j3
  obtain ⟨i5, j5⟩ := fwd_step_inv 2 m _ i4 j4
  rw [bit_scan_forward_steps m h0]
  generalize fwd_step 2 (fwd_step 4 (fwd_step 8 (fwd_step 16 (fwd_step 32 (0, m))))) = s
    at i5 j5
  rw [Nat.and_one_is_mod]
  have j5' : s.2 % 4 ≠ 0 := j5
  by_cases hc : s.2 % 2 = 0
  · rw [if_pos hc]
    apply lsb_of_odd_mul m (s.1 + 1) (s.2 / 2) (by omega) _ hm
    rw [i5, Nat.pow_succ]
    have : s.2 = 2 * (s.2 / 2) := by omega
    nth_rewrite 1 [this]
    ring
  · rw [if_neg hc]
    apply lsb_of_odd_mul m s.1 s.2 (by omega) _ hm
    rw [i5, Nat.mul_comm]

theorem bit_scan_forward_lowest_witness :
    0xB000 < 2 ^ 64 ∧
      (bit_scan_forward 0 = 64
        ∧ (0xB000 ≠ 0 →
            bit_scan_forward 0xB000 < 64 ∧ bit_check 0xB000 (bit_scan_forward 0xB000) = true
              ∧ ∀ j, j < bit_scan_forward 0xB000 → bit_check 0xB000 j = false)) :=
  ⟨by decide, bit_scan_forward_lowest 0xB000 (by decide)⟩

/-- C10: `bit_scan_reverse` returns the index of the most-significant set
bit.  `bit_scan_reverse 0 = 64`, and for every 64-bit mask `m ≠ 0` the result
`r` satisfies `r < 64`, `bit_check m r` is true and `bit_check m j` is false
for every `j` with `r < j < 64`; equivalently `2 ^ r ≤ m < 2 ^ (r + 1)`. -/
theorem bit_scan_reverse_highest (m : Nat) (hm : m < 2 ^ 64) :
    bit_scan_reverse 0 = 64
      ∧ (m ≠ 0 →
          bit_scan_reverse m < 64 ∧ bit_check m (bit_scan_reverse m) = true
            ∧ (∀ j, bit_scan_reverse m < j → j < 64 → bit_check m j = false)
            ∧ 2 ^ bit_scan_reverse m ≤ m ∧ m < 2 ^ (bit_scan_reverse m + 1)) := by
  refine ⟨rfl, ?_⟩
  intro h0
  have i0 : ((0, m) : Nat × Nat).2 = m / 2 ^ ((0, m) : Nat × Nat).1 := by simp
  have j0 : ((0, m) : Nat × Nat).2 ≠ 0 := h0
  have k0 : ((0, m) : Nat × Nat).2 < 2 ^ (2 * 32) := hm
  obtain ⟨i1, j1, k1⟩ := rev_step_inv 32 m _ i0 j0 k0
  obtain ⟨i2, j2, k2⟩ := rev_step_inv 16 m _ i1 j1 k1
  obtain ⟨i3, j3, k3⟩ := rev_step_inv 8 m _ i2 j2 k2
  obtain ⟨i4, j4, k4⟩ := rev_step_inv 4 m _ i3 j3 k3
  obtain ⟨i5, j5, k5⟩ := rev_step_inv 2 m _ i4 j4 k4
  rw [bit_scan_reverse_steps m h0]
  generalize rev_step 2 (rev_step 4 (rev_step 8 (rev_step 16 (rev_step 32 (0, m))))) = s
    at i5 j5 k5
  have k5' : s.2 < 4 := k5
  unfold shr64
  rw [Nat.shiftRight_eq_div_pow]
  by_cases hc : s.2 / 2 ^ 1 ≠ 0
  · rw [if_pos hc]
    apply msb_of_div_eq_one m (s.1 + 1) _ hm
    rw [Nat.pow_succ, ← Nat.div_div_eq_div_mul, ← i5]
    omega
  · rw [if_neg hc]
    apply msb_of_div_eq_one m s.1 _ hm
    rw [← i5]
    omega

theorem bit_scan_reverse_highest_witness :
    0xB000 < 2 ^ 64 ∧
      (bit_scan_reverse 0 = 64
        ∧ (0xB000 ≠ 0 →
            bit_scan_reverse 0xB000 < 64 ∧ bit_check 0xB000 (bit_scan_reverse 0xB000) = true
              ∧ (∀ j, bit_scan_reverse 0xB000 < j → j < 64 → bit_check 0xB000 j = false)
              ∧ 2 ^ bit_scan_reverse 0xB000 ≤ 0xB000
              ∧ 0xB000 < 2 ^ (bit_scan_reverse 0xB000 + 1))) :=
  ⟨by decide, bit_scan_reverse_highest 0xB000 (by decide)⟩

/-! ## Single-bit operations -/

theorem testBit_BIT (bit i : Nat) (hb : bit < 64) : (BIT bit).testBit i = decide (bit = i) := by
  unfold BIT
  rw [shl64_one bit hb, Nat.testBit_two_pow]

theorem testBit_bit_set (m bit i : Nat) (hb : bit < 64) :
    (bit_set m bit).testBit i = (m.testBit i || decide (bit = i)) := by
  unfold bit_set
  rw [if_pos hb, Nat.testBit_or, testBit_BIT bit i hb]

theorem testBit_bit_clear (m bit i : Nat) (hb : bit < 64) :
    (bit_clear m bit).testBit i = (m.testBit i && (decide (i < 64) && !decide (bit = i))) := by
  unfold bit_clear
  rw [if_pos hb, Nat.testBit_and, testBit_not64, testBit_BIT bit i hb]

theorem testBit_bit_toggle (m bit i : Nat) (hb : bit < 64) :
    (bit_toggle m bit).testBit i = (m.testBit i ^^ decide (bit = i)) := by
  unfold bit_toggle
  rw [if_pos hb, Nat.testBit_xor, testBit_BIT bit i hb]

/-- C13: for every mask `m`, every valid `bit < 64` and every position
`i < 64`: after `bit_set`, `bit_check` at `i` is true iff `i = bit` or it was
true in `m`; after `bit_clear`, iff `i ≠ bit` and it was true in `m`; after
`bit_toggle`, `bit_check` at `bit` is the negation of its prior value and
every other position is unchanged.  Hence the check is true after a set,
false after a clear, and toggling twice restores `m`. -/
theorem single_bit_ops (m bit i : Nat) (hb : bit < 64) (hi : i < 64) :
    (bit_check (bit_set m bit) i = true ↔ (i = bit ∨ bit_check m i = true))
      ∧ (bit_check (bit_clear m bit) i = true ↔ (i ≠ bit ∧ bit_check m i = true))
      ∧ bit_check (bit_toggle m bit) bit = !bit_check m bit
      ∧ (i ≠ bit → bit_check (bit_toggle m bit) i = bit_check m i)
      ∧ bit_check (bit_set m bit) bit = true
      ∧ bit_check (bit_clear m bit) bit = false
      ∧ bit_toggle (bit_toggle m bit) bit = m := by
  simp only [bit_check_eq_testBit, testBit_bit_set m bit _ hb, testBit_bit_clear m bit _ hb,
    testBit_bit_toggle m bit _ hb, hb, hi, decide_True, Bool.true_and]
  refine ⟨?_, ?_, ?_, ?_, ?_, ?_, ?_⟩
  · by_cases h : bit = i
    · simp [h]
    · have h2 : ¬ i = bit := fun c => h c.symm
      simp [h, h2]
  · by_cases h : bit = i
    · simp [h]
    · have h2 : ¬ i = bit := fun c => h c.symm
      simp [h, h2]
  · simp
  · intro h
    have h2 : ¬ bit = i := fun c => h c.symm
    simp [h2]
  · simp
  · simp
  · apply Nat.eq_of_testBit_eq
    intro j
    rw [testBit_bit_toggle _ bit j hb, testBit_bit_toggle m bit j hb]
    cases m.testBit j <;> cases decide (bit = j) <;> rfl

theorem single_bit_ops_witness :
    (5 < 64 ∧ 3 < 64) ∧
      ((bit_check (bit_set 0x9 5) 3 = true ↔ (3 = 5 ∨ bit_check 0x9 3 = true))
        ∧ (bit_check (bit_clear 0x9 5) 3 = true ↔ (3 ≠ 5 ∧ bit_check 0x9 3 = true))
        ∧ bit_check (bit_toggle 0x9 5) 5 = !bit_check 0x9 5
        ∧ (3 ≠ 5 → bit_check (bit_toggle 0x9 5) 3 = bit_check 0x9 3)
        ∧ bit_check (bit_set 0x9 5) 5 = true
        ∧ bit_check (bit_clear 0x9 5) 5 = false
        ∧ bit_toggle (bit_toggle 0x9 5) 5 = 0x9) :=
  ⟨by decide, single_bit_ops 0x9 5 3 (by decide) (by decide)⟩

/-- C14: for every mask `m` and every bit index `bit ≥ 64` (so for 64..255),
`bit_set`, `bit_clear` and `bit_toggle` leave `m` unchanged and
`bit_check m bit` returns false. -/
theorem single_bit_ops_out_of_range (m bit : Nat) (hb : bit ≥ 64) :
    bit_set m bit = m ∧ bit_clear m bit = m ∧ bit_toggle m bit = m
      ∧ bit_check m bit = false := by
  have h : ¬ bit < 64 := by omega
  unfold bit_set bit_clear bit_toggle bit_check
  rw [if_neg h, if_neg h, if_neg h, if_pos hb]
  exact ⟨rfl, rfl, rfl, rfl⟩

theorem single_bit_ops_out_of_range_witness :
    200 ≥ 64 ∧
      (bit_set 0xF0F0 200 = 0xF0F0 ∧ bit_clear 0xF0F0 200 = 0xF0F0
        ∧ bit_toggle 0xF0F0 200 = 0xF0F0 ∧ bit_check 0xF0F0 200 = false) :=
  ⟨by decide, single_bit_ops_out_of_range 0xF0F0 200 (by decide)⟩

/-! ## Set algebra -/

/-- C15: for 64-bit masks `s` and `t`, `bitmask_is_subset s t` is true iff
every bit position set in `s` is also set in `t`; consequently
`bitmask_is_subset a (bitmask_merge a b)` and
`bitmask_is_subset (bitmask_intersect a b) a` are true for all `a`, `b`. -/
theorem is_subset_iff (s t a b : Nat) (hs : s < 2 ^ 64) :
    (bitmask_is_subset s t = true
        ↔ ∀ i, i < 64 → s.testBit i = true → t.testBit i = true)
      ∧ bitmask_is_subset a (bitmask_merge a b) = true
      ∧ bitmask_is_subset (bitmask_intersect a b) a = true := by
  unfold bitmask_is_subset bitmask_merge bitmask_intersect
  refine ⟨?_, ?_, ?_⟩
  · rw [decide_eq_true_iff]
    constructor
    · intro h i _ hsi
      have := congrArg (fun x => x.testBit i) h
      simp only [Nat.testBit_and, hsi, Bool.true_and] at this
      exact this
    · intro h
      apply Nat.eq_of_testBit_eq
      intro i
      rw [Nat.testBit_and]
      by_cases hi : i < 64
      · cases hsi : s.testBit i
        · rfl
        · rw [h i hi hsi]; rfl
      · have : s.testBit i = false :=
          Nat.testBit_lt_two_pow
            (Nat.lt_of_lt_of_le hs (Nat.pow_le_pow_right (by decide) (by omega)))
        rw [this]; rfl
  · rw [decide_eq_true_iff]
    apply Nat.eq_of_testBit_eq
    intro i
    rw [Nat.testBit_and, Nat.testBit_or]
    cases a.testBit i <;> cases b.testBit i <;> rfl
  · rw [decide_eq_true_iff]
    apply Nat.eq_of_testBit_eq
    intro i
    rw [Nat.testBit_and, Nat.testBit_and]
    cases a.testBit i <;> cases b.testBit i <;> rfl

theorem is_subset_iff_witness :
    0x03 < 2 ^ 64 ∧
      ((bitmask_is_subset 0x03 0x0F = true
          ↔ ∀ i, i < 64 → (0x03).testBit i = true → (0x0F).testBit i = true)
        ∧ bitmask_is_subset 0x0F (bitmask_merge 0x0F 0x33) = true
        ∧ bitmask_is_subset (bitmask_intersect 0x0F 0x33) 0x0F = true) :=
  ⟨by decide, is_subset_iff 0x03 0x0F 0x0F 0x33 (by decide)⟩

/-- C16: the set-algebra operations are union, intersection and difference
on bit positions.  For 64-bit `a`, any `b` and every `i < 64`: bit `i` of
`bitmask_merge a b` is set iff it is set in `a` or in `b`, of
`bitmask_intersect a b` iff in both, of `bitmask_difference a b` iff in `a`
and not in `b`; `bitmask_difference a b` shares no bit with `b`, and the
merge of the difference and the intersection is `a`. -/
theorem set_algebra_bits (a b i : Nat) (ha : a < 2 ^ 64) (hi : i < 64) :
    ((bitmask_merge a b).testBit i = true ↔ (a.testBit i = true ∨ b.testBit i = true))
      ∧ ((bitmask_intersect a b).testBit i = true
          ↔ (a.testBit i = true ∧ b.testBit i = true))
      ∧ ((bitmask_difference a b).testBit i = true
          ↔ (a.testBit i = true ∧ ¬ b.testBit i = true))
      ∧ bitmask_intersect (bitmask_difference a b) b = 0
      ∧ bitmask_merge (bitmask_difference a b) (bitmask_intersect a b) = a := by
  unfold bitmask_merge bitmask_intersect bitmask_difference
  refine ⟨?_, ?_, ?_, ?_, ?_⟩
  · rw [Nat.testBit_or]; simp
  · rw [Nat.testBit_and]; simp
  · rw [Nat.testBit_and, testBit_not64]; simp [hi]
  · apply Nat.eq_of_testBit_eq
    intro j
    rw [Nat.testBit_and, Nat.testBit_and, testBit_not64, Nat.zero_testBit]
    cases a.testBit j <;> cases b.testBit j <;> simp
  · apply Nat.eq_of_testBit_eq
    intro j
    rw [Nat.testBit_or, Nat.testBit_and, Nat.testBit_and, testBit_not64]
    by_cases hj : j < 64
    · cases a.testBit j <;> cases b.testBit j <;> simp [hj]
    · have : a.testBit j = false :=
        Nat.testBit_lt_two_pow
          (Nat.lt_of_lt_of_le ha (Nat.pow_le_pow_right (by decide) (by omega)))
      simp [this]

theorem set_algebra_bits_witness :
    (0x0F < 2 ^ 64 ∧ 4 < 64) ∧
      (((bitmask_merge 0x0F 0x33).testBit 4 = true
          ↔ ((0x0F).testBit 4 = true ∨ (0x33).testBit 4 = true))
        ∧ ((bitmask_intersect 0x0F 0x33).testBit 4 = true
            ↔ ((0x0F).testBit 4 = true ∧ (0x33).testBit 4 = true))
        ∧ ((bitmask_difference 0x0F 0x33).testBit 4 = true
            ↔ ((0x0F).testBit 4 = true ∧ ¬ (0x33).testBit 4 = true))
        ∧ bitmask_intersect (bitmask_difference 0x0F 0x33) 0x33 = 0
        ∧ bitmask_merge (bitmask_difference 0x0F 0x33) (bitmask_intersect 0x0F 0x33) = 0x0F) :=
  ⟨by decide, set_algebra_bits 0x0F 0x33 4 (by decide) (by decide)⟩

/-! ## Wrapper record -/

/-- C18: `bitmask64_init` sets the `bits` field to 0, so `bitmask64_check` is
false for every bit index afterwards; `bitmask64_set w bit` changes `w.bits`
exactly as `bit_set` changes a raw mask (a no-op for `bit ≥ 64`);
`bitmask64_check w bit` equals `bit_check w.bits bit`; so after
`bitmask64_set w bit` with `bit < 64`, `bitmask64_check` at `bit` is true. -/
theorem wrapper_delegates (w : bitmask64_t) (bit : Nat) :
    (bitmask64_init w).bits = 0
      ∧ (∀ b, bitmask64_check (bitmask64_init w) b = false)
      ∧ (bitmask64_set w bit).bits = bit_set w.bits bit
      ∧ (bit ≥ 64 → bitmask64_set w bit = w)
      ∧ bitmask64_check w bit = bit_check w.bits bit
      ∧ (bit < 64 → bitmask64_check (bitmask64_set w bit) bit = true) := by
  refine ⟨rfl, ?_, rfl, ?_, rfl, ?_⟩
  · intro b
    unfold bitmask64_check bitmask64_init
    rw [bit_check_eq_testBit, Nat.zero_testBit, Bool.and_false]
  · intro hb
    have h : ¬ bit < 64 := by omega
    unfold bitmask64_set bit_set
    rw [if_neg h]
  · intro hb
    unfold bitmask64_check bitmask64_set
    rw [bit_check_eq_testBit, testBit_bit_set _ bit bit hb]
    simp [hb]

theorem wrapper_delegates_witness :
    (bitmask64_init ⟨0xFF⟩).bits = 0
      ∧ (∀ b, bitmask64_check (bitmask64_init ⟨0xFF⟩) b = false)
      ∧ (bitmask64_set ⟨0xFF⟩ 9).bits = bit_set (bitmask64_t.bits ⟨0xFF⟩) 9
      ∧ (9 ≥ 64 → bitmask64_set ⟨0xFF⟩ 9 = ⟨0xFF⟩)
      ∧ bitmask64_check ⟨0xFF⟩ 9 = bit_check (bitmask64_t.bits ⟨0xFF⟩) 9
      ∧ (9 < 64 → bitmask64_check (bitmask64_set ⟨0xFF⟩ 9) 9 = true) :=
  wrapper_delegates ⟨0xFF⟩ 9

/-! ## End-to-end scenario -/

/-- C17: starting from mask 0 and applying `bit_set` for bits 0, 3 and 5
gives a mask with `popcount` 3 and `bit_scan_forward` 0; after then applying
`bits_write_range` with range `[16, 23]` and value `0xAB`, `bits_get_range`
over `[16, 23]` returns `0xAB`, and bits 0, 3 and 5 are still set. -/
theorem end_to_end_scenario :
    popcount (bit_set (bit_set (bit_set 0 0) 3) 5) = 3
      ∧ bit_scan_forward (bit_set (bit_set (bit_set 0 0) 3) 5) = 0
      ∧ bits_get_range
          (bits_write_range (bit_set (bit_set (bit_set 0 0) 3) 5) 16 23 0xAB) 16 23 = 0xAB
      ∧ bit_check (bits_write_range (bit_set (bit_set (bit_set 0 0) 3) 5) 16 23 0xAB) 0 = true
      ∧ bit_check (bits_write_range (bit_set (bit_set (bit_set 0 0) 3) 5) 16 23 0xAB) 3 = true
      ∧ bit_check (bits_write_range (bit_set (bit_set (bit_set 0 0) 3) 5) 16 23 0xAB) 5 = true := by
  decide

/-! ## Population count -/

theorem lane_shr_and (s q r M c : Nat) (hr : r < 256) (hc : c < 2 ^ (8 - s)) (hs : s ≤ 8) :
    ((r + 256 * q) >>> s) &&& (c + 256 * M) = ((r >>> s) &&& c) + 256 * ((q >>> s) &&& M) := by
  have hc8 : c < 2 ^ 8 := Nat.lt_of_lt_of_le hc (Nat.pow_le_pow_right (by decide) (by omega))
  have hrc : (r >>> s) &&& c < 2 ^ 8 := Nat.lt_of_le_of_lt Nat.and_le_right hc8
  have e1 : r + 256 * q = 2 ^ 8 * q + r := by omega
  have e2 : c + 256 * M = 2 ^ 8 * M + c := by omega
  have e3 : ((r >>> s) &&& c) + 256 * ((q >>> s) &&& M)
      = 2 ^ 8 * ((q >>> s) &&& M) + ((r >>> s) &&& c) := by omega
  rw [e1, e2, e3]
  apply Nat.eq_of_testBit_eq
  intro j
  rw [Nat.testBit_and, Nat.testBit_shiftRight, Nat.testBit_mul_pow_two_add _ hr,
    Nat.testBit_mul_pow_two_add _ hc8, Nat.testBit_mul_pow_two_add _ hrc,
    Nat.testBit_and, Nat.testBit_and, Nat.testBit_shiftRight, Nat.testBit_shiftRight]
  by_cases hj : j < 8
  · rw [if_pos hj, if_pos hj]
    by_cases hsj : s + j < 8
    · rw [if_pos hsj]
    · rw [if_neg hsj]
      have : c.testBit j = false :=
        Nat.testBit_lt_two_pow (Nat.lt_of_lt_of_le hc (Nat.pow_le_pow_right (by decide) (by omega)))
      rw [this, Bool.and_false, Bool.and_false]
  · rw [if_neg hj, if_neg hj, if_neg (by omega)]
    have : s + j - 8 = s + (j - 8) := by omega
    rw [this]

theorem of_bytes_shr_and (s c : Nat) (hc : c < 2 ^ (8 - s)) (hs : s ≤ 8) :
    ∀ bs : List Nat, (∀ b ∈ bs, b < 256) →
      (of_bytes bs >>> s) &&& of_bytes (List.replicate bs.length c)
        = of_bytes (bs.map (fun b => (b >>> s) &&& c))
  | [], _ => by simp [of_bytes]
  | b :: bs, h => by
    have hb : b < 256 := h b (List.mem_cons_self _ _)
    have ih := of_bytes_shr_and s c hc hs bs (fun x hx => h x (List.mem_cons_of_mem _ hx))
    simp only [List.length_cons, List.replicate_succ, List.map_cons, of_bytes]
    rw [lane_shr_and s _ b _ c hb hc hs, ih]

theorem of_bytes_sub (f : Nat → Nat) (hf : ∀ b, f b ≤ b) :
    ∀ bs : List Nat, of_bytes (bs.map f) ≤ of_bytes bs
      ∧ of_bytes bs - of_bytes (bs.map f) = of_bytes (bs.map (fun b => b - f b))
  | [] => by simp [of_bytes]
  | b :: bs => by
    obtain ⟨ih1, ih2⟩ := of_bytes_sub f hf bs
    have hb := hf b
    simp only [List.map_cons, of_bytes]
    rw [← ih2]
    omega

theorem of_bytes_add (f g : Nat → Nat) :
    ∀ bs : List Nat, of_bytes (bs.map f) + of_bytes (bs.map g)
      = of_bytes (bs.map (fun b => f b + g b))
  | [] => by simp [of_bytes]
  | b :: bs => by
    have ih := of_bytes_add f g bs
    simp only [List.map_cons, of_bytes]
    rw [← ih]
    omega

theorem of_bytes_lt : ∀ bs : List Nat, (∀ b ∈ bs, b < 256) → of_bytes bs < 256 ^ bs.length
  | [], _ => by simp [of_bytes]
  | b :: bs, h => by
    have hb : b < 256 := h b (List.mem_cons_self _ _)
    have ih := of_bytes_lt bs (fun x hx => h x (List.mem_cons_of_mem _ hx))
    simp only [List.length_cons, of_bytes, Nat.pow_succ]
    omega

theorem of_bytes_half_lt :
    ∀ bs : List Nat, (∀ b ∈ bs, b < 128) → 2 * of_bytes bs < 256 ^ bs.length
  | [], _ => by simp [of_bytes]
  | b :: bs, h => by
    have hb : b < 128 := h b (List.mem_cons_self _ _)
    have ih := of_bytes_half_lt bs (fun x hx => h x (List.mem_cons_of_mem _ hx))
    simp only [List.length_cons, of_bytes, Nat.pow_succ]
    omega

theorem of_bytes_mod_16 (ws : List Nat) (h : ∀ w ∈ ws, w % 16 ≤ 4 ∧ w / 16 ≤ 4) :
    of_bytes ws % 16 ≤ 4 := by
  cases ws with
  | nil => simp [of_bytes]
  | cons w ws =>
    have hw := (h w (List.mem_cons_self _ _)).1
    simp only [of_bytes]
    omega

theorem of_bytes_fold :
    ∀ ws : List Nat, (∀ w ∈ ws, w % 16 ≤ 4 ∧ w / 16 ≤ 4) →
      (of_bytes ws + of_bytes ws / 16) &&& of_bytes (List.replicate ws.length 0x0F)
        = of_bytes (ws.map (fun w => w % 16 + w / 16))
  | [], _ => by simp [of_bytes]
  | w :: ws, h => by
    have hw := h w (List.mem_cons_self _ _)
    have htl : ∀ x ∈ ws, x % 16 ≤ 4 ∧ x / 16 ≤ 4 := fun x hx => h x (List.mem_cons_of_mem _ hx)
    have ih := of_bytes_fold ws htl
    have hX := of_bytes_mod_16 ws htl
    simp only [List.length_cons, List.replicate_succ, List.map_cons, of_bytes]
    have hz : w + 256 * of_bytes ws + (w + 256 * of_bytes ws) / 16
        = (w + w / 16 + 16 * (of_bytes ws % 16))
          + 256 * (of_bytes ws + of_bytes ws / 16) := by omega
    have hr : w + w / 16 + 16 * (of_bytes ws % 16) < 256 := by omega
    have key := lane_shr_and 0 (of_bytes ws + of_bytes ws / 16)
      (w + w / 16 + 16 * (of_bytes ws % 16))
      (of_bytes (List.replicate ws.length 0x0F)) 0x0F hr (by decide) (by decide)
    simp only [Nat.shiftRight_zero] at key
    rw [hz, key, ih]
    have h15 : (15 : Nat) = 2 ^ 4 - 1 := by decide
    rw [h15, Nat.and_pow_two_sub_one_eq_mod]
    omega

theorem mul_sums_bytes (c0 c1 c2 c3 c4 c5 c6 c7 : Nat)
    (h0 : c0 ≤ 8) (h1 : c1 ≤ 8) (h2 : c2 ≤ 8) (h3 : c3 ≤ 8) (h4 : c4 ≤ 8) (h5 : c5 ≤ 8)
    (h6 : c6 ≤ 8) (h7 : c7 ≤ 8) :
    shr64 (mul64 (of_bytes [c0, c1, c2, c3, c4, c5, c6, c7]) 0x0101010101010101) 56
      = c0 + c1 + c2 + c3 + c4 + c5 + c6 + c7 := by
  unfold shr64 mul64
  rw [Nat.shiftRight_eq_div_pow]
  simp only [of_bytes]
  have split : (c0 + 256 * (c1 + 256 * (c2 + 256 * (c3 + 256 * (c4 + 256 * (c5
      + 256 * (c6 + 256 * (c7 + 256 * 0)))))))) * 0x0101010101010101
      = (c0 + 256 * (c0 + c1) + 65536 * (c0 + c1 + c2) + 16777216 * (c0 + c1 + c2 + c3)
          + 4294967296 * (c0 + c1 + c2 + c3 + c4)
          + 1099511627776 * (c0 + c1 + c2 + c3 + c4 + c5)
          + 281474976710656 * (c0 + c1 + c2 + c3 + c4 + c5 + c6)
          + 72057594037927936 * (c0 + c1 + c2 + c3 + c4 + c5 + c6 + c7))
        + 2 ^ 64 * (c1 + 257 * c2 + 65793 * c3 + 16843009 * c4 + 4311810305 * c5
          + 1103823438081 * c6 + 282578800148737 * c7) := by
    ring
  rw [split, Nat.add_mul_mod_self_left, Nat.mod_eq_of_lt (by omega)]
  omega

theorem bytes8_spec (m : Nat) (hm : m < 2 ^ 64) :
    of_bytes (bytes8 m) = m ∧ (∀ b ∈ bytes8 m, b < 256) ∧ (bytes8 m).length = 8 := by
  refine ⟨?_, ?_, rfl⟩
  · simp only [bytes8, of_bytes]
    omega
  · intro b hb
    simp only [bytes8, List.mem_cons, List.mem_singleton, List.not_mem_nil, or_false] at hb
    omega

set_option maxRecDepth 100000 in
theorem byte_facts :
    ∀ b, b < 256 →
      (b >>> 1 &&& 0x55) ≤ b ∧ byte_pairs b < 256
        ∧ (byte_nibbles b % 16 ≤ 4 ∧ byte_nibbles b / 16 ≤ 4) ∧ byte_nibbles b < 128
        ∧ byte_count b ≤ 8
        ∧ byte_count b = ((Finset.range 8).filter (fun i => b.testBit i = true)).card := by
  decide

theorem popcount_of_bytes (bs : List Nat) (hlen : bs.length = 8) (hlt : ∀ b ∈ bs, b < 256) :
    popcount (of_bytes bs) = (bs.map byte_count).sum := by
  have hC1 : of_bytes (List.replicate 8 0x55) = 0x5555555555555555 := by decide
  have hC2 : of_bytes (List.replicate 8 0x33) = 0x3333333333333333 := by decide
  have hC3 : of_bytes (List.replicate 8 0x0F) = 0x0F0F0F0F0F0F0F0F := by decide
  have h256 : (256 : Nat) ^ 8 = 2 ^ 64 := by decide
  -- line 1: the 2-bit counts
  have e1 := of_bytes_shr_and 1 0x55 (by decide) (by decide) bs hlt
  rw [hlen, hC1] at e1
  have hf : ∀ b : Nat, (fun b => b >>> 1 &&& 0x55) b ≤ b := by
    intro b
    apply Nat.le_trans Nat.and_le_left
    rw [Nat.shiftRight_eq_div_pow]
    exact Nat.div_le_self b (2 ^ 1)
  obtain ⟨s1, s2⟩ := of_bytes_sub (fun b => b >>> 1 &&& 0x55) hf bs
  have hb64 : of_bytes bs < 2 ^ 64 := by
    have := of_bytes_lt bs hlt
    rw [hlen, h256] at this
    exact this
  have l1 : sub64 (of_bytes bs) (shr64 (of_bytes bs) 1 &&& 0x5555555555555555)
      = of_bytes (bs.map byte_pairs) := by
    unfold shr64
    rw [e1, sub64_of_le _ _ s1 hb64, s2]
    rfl
  -- line 2: the 4-bit counts
  have hps : ∀ p ∈ bs.map byte_pairs, p < 256 := by
    intro p hp
    obtain ⟨b, hb, rfl⟩ := List.mem_map.mp hp
    exact (byte_facts b (hlt b hb)).2.1
  have e3 := of_bytes_shr_and 0 0x33 (by decide) (by decide) (bs.map byte_pairs) hps
  have e4 := of_bytes_shr_and 2 0x33 (by decide) (by decide) (bs.map byte_pairs) hps
  rw [List.length_map, hlen, hC2] at e3 e4
  simp only [Nat.shiftRight_zero] at e3
  have hws : ∀ w ∈ bs.map byte_nibbles, w < 256 := by
    intro w hw
    obtain ⟨b, hb, rfl⟩ := List.mem_map.mp hw
    have := (byte_facts b (hlt b hb)).2.2.2.1
    omega
  have l2 : add64 (of_bytes (bs.map byte_pairs) &&& 0x3333333333333333)
      (shr64 (of_bytes (bs.map byte_pairs)) 2 &&& 0x3333333333333333)
      = of_bytes (bs.map byte_nibbles) := by
    unfold shr64 add64
    rw [e3, e4, of_bytes_add, List.map_map]
    have hlt2 := of_bytes_lt _ hws
    rw [List.length_map, hlen, h256] at hlt2
    exact Nat.mod_eq_of_lt hlt2
  -- line 3: the byte counts
  have hnib : ∀ w ∈ bs.map byte_nibbles, w % 16 ≤ 4 ∧ w / 16 ≤ 4 := by
    intro w hw
    obtain ⟨b, hb, rfl⟩ := List.mem_map.mp hw
    exact (byte_facts b (hlt b hb)).2.2.1
  have hhalf : ∀ w ∈ bs.map byte_nibbles, w < 128 := by
    intro w hw
    obtain ⟨b, hb, rfl⟩ := List.mem_map.mp hw
    exact (byte_facts b (hlt b hb)).2.2.2.1
  have e5 := of_bytes_fold (bs.map byte_nibbles) hnib
  rw [List.length_map, hlen, hC3, List.map_map] at e5
  have l3 : add64 (of_bytes (bs.map byte_nibbles)) (shr64 (of_bytes (bs.map byte_nibbles)) 4)
      &&& 0x0F0F0F0F0F0F0F0F = of_bytes (bs.map byte_count) := by
    have h2 := of_bytes_half_lt _ hhalf
    rw [List.length_map, hlen, h256] at h2
    unfold shr64 add64
    rw [Nat.shiftRight_eq_div_pow, Nat.mod_eq_of_lt (by omega)]
    exact e5
  -- line 4: the sum of the byte counts, in the top byte of the product
  unfold popcount
  simp only [l1, l2, l3]
  match bs, hlen, hlt with
  | [b0, b1, b2, b3, b4, b5, b6, b7], _, hlt =>
    have c0 := (byte_facts b0 (hlt b0 (by simp))).2.2.2.2.1
    have c1 := (byte_facts b1 (hlt b1 (by simp))).2.2.2.2.1
    have c2 := (byte_facts b2 (hlt b2 (by simp))).2.2.2.2.1
    have c3 := (byte_facts b3 (hlt b3 (by simp))).2.2.2.2.1
    have c4 := (byte_facts b4 (hlt b4 (by simp))).2.2.2.2.1
    have c5 := (byte_facts b5 (hlt b5 (by simp))).2.2.2.2.1
    have c6 := (byte_facts b6 (hlt b6 (by simp))).2.2.2.2.1
    have c7 := (byte_facts b7 (hlt b7 (by simp))).2.2.2.2.1
    simp only [List.map_cons, List.map_nil, List.sum_cons, List.sum_nil]
    rw [mul_sums_bytes _ _ _ _ _ _ _ _ c0 c1 c2 c3 c4 c5 c6 c7]
    omega

theorem count_of_bytes :
    ∀ bs : List Nat, (∀ b ∈ bs, b < 256) →
      ((Finset.range (8 * bs.length)).filter (fun i => (of_bytes bs).testBit i = true)).card
        = (bs.map (fun b => ((Finset.range 8).filter (fun i => b.testBit i = true)).card)).sum
  | [], _ => by simp
  | b :: bs, h => by
    have hb : b < 2 ^ 8 := h b (List.mem_cons_self _ _)
    have ih := count_of_bytes bs (fun x hx => h x (List.mem_cons_of_mem _ hx))
    have hlen : 8 * (b :: bs).length = 8 + 8 * bs.length := by
      rw [List.length_cons]; omega
    have hrep : of_bytes (b :: bs) = 2 ^ 8 * of_bytes bs + b := by
      simp only [of_bytes]; omega
    rw [List.map_cons, List.sum_cons, ← ih, hlen, hrep]
    simp only [Finset.card_filter]
    rw [Finset.sum_range_add]
    congr 1
    · apply Finset.sum_congr rfl
      intro i hi
      rw [Finset.mem_range] at hi
      rw [Nat.testBit_mul_pow_two_add _ hb, if_pos hi]
    · apply Finset.sum_congr rfl
      intro i _
      have hn : ¬ 8 + i < 8 := by omega
      rw [Nat.testBit_mul_pow_two_add _ hb, if_neg hn, Nat.add_sub_cancel_left]

theorem popcount_eq_naive (m : Nat) (hm : m < 2 ^ 64) : popcount m = naive_popcount m := by
  obtain ⟨hrep, hlt, hlen⟩ := bytes8_spec m hm
  have h1 := popcount_of_bytes (bytes8 m) hlen hlt
  have h2 := count_of_bytes (bytes8 m) hlt
  rw [hrep] at h1 h2
  rw [hlen] at h2
  unfold naive_popcount
  rw [h1, h2]
  congr 1
  apply List.map_congr_left
  intro b hb
  exact (byte_facts b (hlt b hb)).2.2.2.2.2

theorem naive_popcount_le (m : Nat) : naive_popcount m ≤ 64 := by
  unfold naive_popcount
  exact Nat.le_trans (Finset.card_filter_le _ _) (by simp)

/-- C11: for every 64-bit mask `m`, `popcount m` equals the number of
positions `i` in 0..63 with bit `i` of `m` set.  The value lies in 0..64; the
wrapping operations of the definition and its final narrowing to 8 bits are
part of `popcount`.  In particular `popcount 0 = 0`, `popcount` of all-ones is
64 and `popcount (1 << i) = 1` for every `i < 64`. -/
theorem popcount_counts_bits (m i : Nat) (hm : m < 2 ^ 64) (hi : i < 64) :
    popcount m = naive_popcount m
      ∧ popcount m ≤ 64
      ∧ popcount 0 = 0
      ∧ popcount BITMASK64_ALL = 64
      ∧ popcount (shl64 1 i) = 1 := by
  refine ⟨popcount_eq_naive m hm, ?_, by decide, by decide, ?_⟩
  · rw [popcount_eq_naive m hm]
    exact naive_popcount_le m
  · have hlt : shl64 1 i < 2 ^ 64 := Nat.mod_lt _ (by decide)
    rw [popcount_eq_naive _ hlt, shl64_one i hi]
    unfold naive_popcount
    have : (Finset.range 64).filter (fun j => (2 ^ i).testBit j = true) = {i} := by
      ext j
      simp only [Finset.mem_filter, Finset.mem_range, Finset.mem_singleton, Nat.testBit_two_pow,
        decide_eq_true_eq]
      omega
    rw [this, Finset.card_singleton]

theorem popcount_counts_bits_witness :
    (0xF0F0AB01 < 2 ^ 64 ∧ 37 < 64) ∧
      (popcount 0xF0F0AB01 = naive_popcount 0xF0F0AB01
        ∧ popcount 0xF0F0AB01 ≤ 64
        ∧ popcount 0 = 0
        ∧ popcount BITMASK64_ALL = 64
        ∧ popcount (shl64 1 37) = 1) :=
  ⟨by decide, popcount_counts_bits 0xF0F0AB01 37 (by decide) (by decide)⟩

/-! ## Scanners, iteration and counting together -/

theorem bit_scan_forward_factor (m : Nat) (hm : m < 2 ^ 64) (h0 : m ≠ 0) :
    ∃ q, q % 2 = 1 ∧ m = 2 ^ bit_scan_forward m * q := by
  have i0 : m = ((0, m) : Nat × Nat).2 * 2 ^ ((0, m) : Nat × Nat).1 := by simp
  have j0 : ((0, m) : Nat × Nat).2 % 2 ^ (2 * 32) ≠ 0 := by
    show m % 2 ^ 64 ≠ 0
    rw [Nat.mod_eq_of_lt hm]
    exact h0
  obtain ⟨i1, j1⟩ := fwd_step_inv 32 m _ i0 j0
  obtain ⟨i2, j2⟩ := fwd_step_inv 16 m _ i1 j1
  obtain ⟨i3, j3⟩ := fwd_step_inv 8 m _ i2 j2
  obtain ⟨i4, j4⟩ := fwd_step_inv 4 m _ i3 j3
  obtain ⟨i5, j5⟩ := fwd_step_inv 2 m _ i4 j4
  rw [bit_scan_forward_steps m h0]
  generalize fwd_step 2 (fwd_step 4 (fwd_step 8 (fwd_step 16 (fwd_step 32 (0, m))))) = s
    at i5 j5
  rw [Nat.and_one_is_mod]
  have j5' : s.2 % 4 ≠ 0 := j5
  by_cases hc : s.2 % 2 = 0
  · rw [if_pos hc]
    refine ⟨s.2 / 2, by omega, ?_⟩
    rw [i5, Nat.pow_succ]
    have : s.2 = 2 * (s.2 / 2) := by omega
    nth_rewrite 1 [this]
    ring
  · rw [if_neg hc]
    exact ⟨s.2, by omega, by rw [i5, Nat.mul_comm]⟩

theorem bit_scan_reverse_div (m : Nat) (hm : m < 2 ^ 64) (h0 : m ≠ 0) :
    m / 2 ^ bit_scan_reverse m = 1 := by
  have i0 : ((0, m) : Nat × Nat).2 = m / 2 ^ ((0, m) : Nat × Nat).1 := by simp
  have j0 : ((0, m) : Nat × Nat).2 ≠ 0 := h0
  have k0 : ((0, m) : Nat × Nat).2 < 2 ^ (2 * 32) := hm
  obtain ⟨i1, j1, k1⟩ := rev_step_inv 32 m _ i0 j0 k0
  obtain ⟨i2, j2, k2⟩ := rev_step_inv 16 m _ i1 j1 k1
  obtain ⟨i3, j3, k3⟩ := rev_step_inv 8 m _ i2 j2 k2
  obtain ⟨i4, j4, k4⟩ := rev_step_inv 4 m _ i3 j3 k3
  obtain ⟨i5, j5, k5⟩ := rev_step_inv 2 m _ i4 j4 k4
  rw [bit_scan_reverse_steps m h0]
  generalize rev_step 2 (rev_step 4 (rev_step 8 (rev_step 16 (rev_step 32 (0, m))))) = s
    at i5 j5 k5
  have k5' : s.2 < 4 := k5
  unfold shr64
  rw [Nat.shiftRight_eq_div_pow]
  by_cases hc : s.2 / 2 ^ 1 ≠ 0
  · rw [if_pos hc, Nat.pow_succ, ← Nat.div_div_eq_div_mul, ← i5]
    omega
  · rw [if_neg hc, ← i5]
    omega

theorem bit_scan_forward_testBit (m : Nat) (hm : m < 2 ^ 64) (h0 : m ≠ 0) :
    bit_scan_forward m < 64 ∧ m.testBit (bit_scan_forward m) = true
      ∧ ∀ j, j < bit_scan_forward m → m.testBit j = false := by
  obtain ⟨q, hq, hf⟩ := bit_scan_forward_factor m hm h0
  obtain ⟨h1, h2, h3⟩ := lsb_of_odd_mul m _ q hq hf hm
  refine ⟨h1, ?_, ?_⟩
  · rw [bit_check_eq_testBit] at h2
    simpa [h1] using h2
  · intro j hj
    have := h3 j hj
    rw [bit_check_eq_testBit] at this
    have hj64 : j < 64 := by omega
    simpa [hj64] using this

theorem bit_scan_reverse_testBit (m : Nat) (hm : m < 2 ^ 64) (h0 : m ≠ 0) :
    bit_scan_reverse m < 64 ∧ m.testBit (bit_scan_reverse m) = true
      ∧ m < 2 ^ (bit_scan_reverse m + 1) := by
  obtain ⟨h1, h2, _, _, h5⟩ := msb_of_div_eq_one m _ (bit_scan_reverse_div m hm h0) hm
  refine ⟨h1, ?_, h5⟩
  rw [bit_check_eq_testBit] at h2
  simpa [h1] using h2

theorem testBit_of_lt_64 (m i : Nat) (hm : m < 2 ^ 64) (h : m.testBit i = true) : i < 64 := by
  by_contra hge
  have : m.testBit i = false :=
    Nat.testBit_lt_two_pow (Nat.lt_of_lt_of_le hm (Nat.pow_le_pow_right (by decide) (by omega)))
  rw [this] at h
  exact Bool.noConfusion h

theorem foreach_step_lt_two_pow (m : Nat) (hm : m < 2 ^ 64) : foreach_step m < 2 ^ 64 := by
  unfold foreach_step
  exact Nat.lt_of_le_of_lt Nat.and_le_left hm

theorem testBit_foreach_step (m i : Nat) (hm : m < 2 ^ 64) (h0 : m ≠ 0) :
    (foreach_step m).testBit i = (m.testBit i && !decide (i = bit_scan_forward m)) := by
  obtain ⟨q, hq, hf⟩ := bit_scan_forward_factor m hm h0
  generalize bit_scan_forward m = r at hf
  have hpos : 0 < 2 ^ r := Nat.two_pow_pos r
  have hq2 : q = 2 * (q / 2) + 1 := by omega
  have hsub : sub64 m 1 = 2 ^ r * (2 * (q / 2)) + (2 ^ r - 1) := by
    rw [sub64_of_le m 1 (by omega) hm, hf]
    nth_rewrite 1 [hq2]
    rw [Nat.mul_add, Nat.mul_one]
    omega
  unfold foreach_step
  rw [Nat.testBit_and, hsub, Nat.testBit_mul_pow_two_add _ (by omega : 2 ^ r - 1 < 2 ^ r)]
  rw [hf, Nat.testBit_mul_pow_two]
  by_cases h1 : i < r
  · have h2 : ¬ i ≥ r := by omega
    simp [h1, h2]
  · have h2 : i ≥ r := by omega
    rw [if_neg h1]
    by_cases h3 : i = r
    · subst h3
      simp
    · obtain ⟨k, hk⟩ : ∃ k, i - r = k + 1 := ⟨i - r - 1, by omega⟩
      rw [hk, Nat.testBit_succ, Nat.testBit_succ]
      have e1 : 2 * (q / 2) / 2 = q / 2 := by omega
      rw [e1]
      simp [h2, h3]

theorem naive_popcount_foreach_step (m : Nat) (hm : m < 2 ^ 64) (h0 : m ≠ 0) :
    naive_popcount (foreach_step m) + 1 = naive_popcount m := by
  obtain ⟨hr, hset, _⟩ := bit_scan_forward_testBit m hm h0
  unfold naive_popcount
  have hfil : (Finset.range 64).filter (fun i => (foreach_step m).testBit i = true)
      = ((Finset.range 64).filter (fun i => m.testBit i = true)).erase (bit_scan_forward m) := by
    ext i
    simp only [Finset.mem_filter, Finset.mem_range, Finset.mem_erase,
      testBit_foreach_step m i hm h0, Bool.and_eq_true, Bool.not_eq_true',
      decide_eq_false_iff_not]
    constructor
    · intro h; exact ⟨h.2.2, h.1, h.2.1⟩
    · intro h; exact ⟨h.2.1, h.2.2, h.1⟩
  have hmem : bit_scan_forward m ∈ (Finset.range 64).filter (fun i => m.testBit i = true) := by
    rw [Finset.mem_filter, Finset.mem_range]
    exact ⟨hr, hset⟩
  rw [hfil, Finset.card_erase_of_mem hmem]
  have := Finset.card_pos.mpr ⟨_, hmem⟩
  omega

theorem popcount_foreach_step (m : Nat) (hm : m < 2 ^ 64) (h0 : m ≠ 0) :
    popcount (foreach_step m) + 1 = popcount m := by
  rw [popcount_eq_naive m hm, popcount_eq_naive _ (foreach_step_lt_two_pow m hm)]
  exact naive_popcount_foreach_step m hm h0

theorem popcount_eq_zero_iff (m : Nat) (hm : m < 2 ^ 64) : popcount m = 0 ↔ m = 0 := by
  constructor
  · intro h
    by_contra h0
    have := popcount_foreach_step m hm h0
    omega
  · intro h
    subst h
    decide

theorem foreach_step_zero : foreach_step 0 = 0 := by decide

theorem iterate_foreach_step_eq_zero_iff :
    ∀ (n m : Nat), m < 2 ^ 64 → (Nat.iterate foreach_step n m = 0 ↔ popcount m ≤ n)
  | 0, m, hm => by
    rw [Function.iterate_zero, id, Nat.le_zero]
    exact (popcount_eq_zero_iff m hm).symm
  | n + 1, m, hm => by
    rw [Function.iterate_succ_apply]
    have ih := iterate_foreach_step_eq_zero_iff n (foreach_step m) (foreach_step_lt_two_pow m hm)
    rw [ih]
    by_cases h0 : m = 0
    · subst h0
      rw [foreach_step_zero]
      have : popcount 0 = 0 := by decide
      omega
    · have := popcount_foreach_step m hm h0
      omega

/-- C19: the iteration step clears exactly the lowest set bit, and the
iteration stops after `popcount` steps.  For every 64-bit `m ≠ 0`,
`foreach_step m` (the value of `m & (m - 1)`) is `m` with bit
`bit_scan_forward m` cleared and every other bit unchanged, and its
`popcount` is `popcount m - 1`.  For every 64-bit `m`, the working mask of
`BITMASK_FOREACH_SET` is nonzero after fewer than `popcount m` steps and is 0
after `popcount m` steps, so the loop runs exactly `popcount m` times. -/
theorem foreach_step_clears_lowest (m : Nat) (hm : m < 2 ^ 64) :
    (m ≠ 0 →
        foreach_step m = bit_clear m (bit_scan_forward m)
          ∧ (foreach_step m).testBit (bit_scan_forward m) = false
          ∧ (∀ i, i ≠ bit_scan_forward m → (foreach_step m).testBit i = m.testBit i)
          ∧ popcount (foreach_step m) = popcount m - 1)
      ∧ Nat.iterate foreach_step (popcount m) m = 0
      ∧ (∀ n, n < popcount m → Nat.iterate foreach_step n m ≠ 0) := by
  refine ⟨?_, ?_, ?_⟩
  · intro h0
    obtain ⟨hr, _, _⟩ := bit_scan_forward_testBit m hm h0
    refine ⟨?_, ?_, ?_, ?_⟩
    · apply Nat.eq_of_testBit_eq
      intro i
      rw [testBit_foreach_step m i hm h0, testBit_bit_clear m _ i hr]
      by_cases hi : i < 64
      · by_cases he : i = bit_scan_forward m
        · rw [he]
          simp
        · have he2 : ¬ bit_scan_forward m = i := fun c => he c.symm
          simp [hi, he, he2]
      · have : m.testBit i = false := by
          cases hb : m.testBit i
          · rfl
          · exact absurd (testBit_of_lt_64 m i hm hb) hi
        simp [this]
    · rw [testBit_foreach_step m _ hm h0]
      simp
    · intro i hi
      rw [testBit_foreach_step m i hm h0]
      simp [hi]
    · have := popcount_foreach_step m hm h0
      omega
  · exact (iterate_foreach_step_eq_zero_iff (popcount m) m hm).mpr (Nat.le_refl _)
  · intro n hn hz
    have := (iterate_foreach_step_eq_zero_iff n m hm).mp hz
    omega

theorem foreach_step_clears_lowest_witness :
    0b1011 < 2 ^ 64 ∧
      ((0b1011 ≠ 0 →
          foreach_step 0b1011 = bit_clear 0b1011 (bit_scan_forward 0b1011)
            ∧ (foreach_step 0b1011).testBit (bit_scan_forward 0b1011) = false
            ∧ (∀ i, i ≠ bit_scan_forward 0b1011 →
                (foreach_step 0b1011).testBit i = (0b1011).testBit i)
            ∧ popcount (foreach_step 0b1011) = popcount 0b1011 - 1)
        ∧ Nat.iterate foreach_step (popcount 0b1011) 0b1011 = 0
        ∧ (∀ n, n < popcount 0b1011 → Nat.iterate foreach_step n 0b1011 ≠ 0)) :=
  ⟨by decide, foreach_step_clears_lowest 0b1011 (by decide)⟩

theorem foreach_set_props (m : Nat) (hm : m < 2 ^ 64) :
    List.Pairwise (fun a b => a < b) (foreach_set m)
      ∧ (∀ i, i ∈ foreach_set m ↔ m.testBit i = true)
      ∧ (foreach_set m).length = popcount m := by
  induction m using Nat.strong_induction_on with
  | _ m ih =>
    rw [foreach_set]
    by_cases h0 : m = 0
    · rw [if_pos h0, h0]
      refine ⟨List.Pairwise.nil, ?_, by decide⟩
      intro i
      simp
    · rw [if_neg h0]
      have hlt : foreach_step m < m := by
        unfold foreach_step sub64
        apply Nat.lt_of_le_of_lt Nat.and_le_right
        omega
      obtain ⟨ih1, ih2, ih3⟩ := ih (foreach_step m) hlt (foreach_step_lt_two_pow m hm)
      obtain ⟨hr, hset, hlow⟩ := bit_scan_forward_testBit m hm h0
      refine ⟨?_, ?_, ?_⟩
      · rw [List.pairwise_cons]
        refine ⟨?_, ih1⟩
        intro a ha
        have hbit := (ih2 a).mp ha
        rw [testBit_foreach_step m a hm h0, Bool.and_eq_true, Bool.not_eq_true',
          decide_eq_false_iff_not] at hbit
        by_contra hge
        have hlt2 : a < bit_scan_forward m := by omega
        have := hlow a hlt2
        rw [this] at hbit
        exact Bool.noConfusion hbit.1
      · intro i
        rw [List.mem_cons, ih2 i, testBit_foreach_step m i hm h0, Bool.and_eq_true,
          Bool.not_eq_true', decide_eq_false_iff_not]
        constructor
        · intro h
          rcases h with h | h
          · rw [h]; exact hset
          · exact h.1
        · intro h
          by_cases he : i = bit_scan_forward m
          · exact Or.inl he
          · exact Or.inr ⟨h, he⟩
      · rw [List.length_cons, ih3]
        exact popcount_foreach_step m hm h0

/-- C12: for every 64-bit mask, the sequence of indices that
`BITMASK_FOREACH_SET` hands to its body is strictly ascending and contains
an index `i` exactly when bit `i` of the mask is set (`bit_check` is true),
so it has no repeats, each set bit occurs in it exactly once and it has
`popcount mask` entries; for the mask `0b1011` it is `[0, 1, 3]`. -/
theorem foreach_set_ascending (m : Nat) (hm : m < 2 ^ 64) :
    List.Pairwise (fun a b => a < b) (foreach_set m)
      ∧ (∀ i, i ∈ foreach_set m ↔ bit_check m i = true)
      ∧ (foreach_set m).Nodup
      ∧ (∀ i, bit_check m i = true → (foreach_set m).count i = 1)
      ∧ (foreach_set m).length = popcount m
      ∧ foreach_set 0b1011 = [0, 1, 3] := by
  obtain ⟨h1, h2, h3⟩ := foreach_set_props m hm
  have hmem : ∀ i, i ∈ foreach_set m ↔ bit_check m i = true := by
    intro i
    rw [h2 i, bit_check_eq_testBit]
    constructor
    · intro h
      have := testBit_of_lt_64 m i hm h
      simp [h, this]
    · intro h
      rw [Bool.and_eq_true] at h
      exact h.2
  have hnd : (foreach_set m).Nodup := by
    unfold List.Nodup
    exact List.Pairwise.imp (fun h => Nat.ne_of_lt h) h1
  refine ⟨h1, hmem, hnd, ?_, h3, ?_⟩
  · intro i hi
    exact List.count_eq_one_of_mem hnd ((hmem i).mpr hi)
  · rw [foreach_set, if_neg (by decide), foreach_set, if_neg (by decide), foreach_set,
      if_neg (by decide), foreach_set, if_pos (by decide)]
    decide

theorem foreach_set_ascending_witness :
    0xF0F0AB01 < 2 ^ 64 ∧
      (List.Pairwise (fun a b => a < b) (foreach_set 0xF0F0AB01)
        ∧ (∀ i, i ∈ foreach_set 0xF0F0AB01 ↔ bit_check 0xF0F0AB01 i = true)
        ∧ (foreach_set 0xF0F0AB01).Nodup
        ∧ (∀ i, bit_check 0xF0F0AB01 i = true → (foreach_set 0xF0F0AB01).count i = 1)
        ∧ (foreach_set 0xF0F0AB01).length = popcount 0xF0F0AB01
        ∧ foreach_set 0b1011 = [0, 1, 3]) :=
  ⟨by decide, foreach_set_ascending 0xF0F0AB01 (by decide)⟩

theorem naive_popcount_two_pow (r : Nat) (hr : r < 64) : naive_popcount (2 ^ r) = 1 := by
  unfold naive_popcount
  have : (Finset.range 64).filter (fun j => (2 ^ r).testBit j = true) = {r} := by
    ext j
    simp only [Finset.mem_filter, Finset.mem_range, Finset.mem_singleton, Nat.testBit_two_pow,
      decide_eq_true_eq]
    omega
  rw [this, Finset.card_singleton]

theorem popcount_eq_64_iff (m : Nat) (hm : m < 2 ^ 64) :
    popcount m = 64 ↔ m = BITMASK64_ALL := by
  constructor
  · intro h
    rw [popcount_eq_naive m hm] at h
    unfold naive_popcount at h
    have hsub : (Finset.range 64).filter (fun i => m.testBit i = true) ⊆ Finset.range 64 :=
      Finset.filter_subset _ _
    have heq := Finset.eq_of_subset_of_card_le hsub (by rw [h, Finset.card_range])
    apply Nat.eq_of_testBit_eq
    intro i
    rw [testBit_all]
    by_cases hi : i < 64
    · have hmem : i ∈ (Finset.range 64).filter (fun i => m.testBit i = true) := by
        rw [heq, Finset.mem_range]
        exact hi
      rw [Finset.mem_filter] at hmem
      simp [hi, hmem.2]
    · have : m.testBit i = false := by
        cases hb : m.testBit i
        · rfl
        · exact absurd (testBit_of_lt_64 m i hm hb) hi
      simp [hi, this]
  · intro h
    rw [h]
    decide

/-- C20: the scanners, `popcount` and the emptiness and fullness predicates
agree.  For every 64-bit mask `m`: `bit_scan_forward m = 64` iff
`bit_scan_reverse m = 64` iff `bitmask_is_empty m` iff `popcount m = 0`;
`bitmask_is_full m` iff `popcount m = 64`; and for `m ≠ 0`,
`bit_scan_forward m ≤ bit_scan_reverse m`, with equality exactly when
`popcount m = 1`. -/
theorem scanners_popcount_agree (m : Nat) (hm : m < 2 ^ 64) :
    (bit_scan_forward m = 64 ↔ bit_scan_reverse m = 64)
      ∧ (bit_scan_reverse m = 64 ↔ bitmask_is_empty m = true)
      ∧ (bitmask_is_empty m = true ↔ popcount m = 0)
      ∧ (bitmask_is_full m = true ↔ popcount m = 64)
      ∧ (m ≠ 0 →
          bit_scan_forward m ≤ bit_scan_reverse m
            ∧ (bit_scan_forward m = bit_scan_reverse m ↔ popcount m = 1)) := by
  have hf : bit_scan_forward m = 64 ↔ m = 0 := by
    constructor
    · intro h
      by_contra h0
      have := (bit_scan_forward_testBit m hm h0).1
      omega
    · intro h
      rw [h]
      rfl
  have hr : bit_scan_reverse m = 64 ↔ m = 0 := by
    constructor
    · intro h
      by_contra h0
      have := (bit_scan_reverse_testBit m hm h0).1
      omega
    · intro h
      rw [h]
      rfl
  have he : bitmask_is_empty m = true ↔ m = 0 := by
    unfold bitmask_is_empty
    exact decide_eq_true_iff
  refine ⟨hf.trans hr.symm, hr.trans he.symm, he.trans (popcount_eq_zero_iff m hm).symm, ?_, ?_⟩
  · unfold bitmask_is_full
    rw [decide_eq_true_iff]
    exact (popcount_eq_64_iff m hm).symm
  · intro h0
    obtain ⟨q, hq, hfac⟩ := bit_scan_forward_factor m hm h0
    obtain ⟨hf64, hfset, _⟩ := bit_scan_forward_testBit m hm h0
    obtain ⟨hr64, hrset, hrlt⟩ := bit_scan_reverse_testBit m hm h0
    have hdiv := bit_scan_reverse_div m hm h0
    have hle : bit_scan_forward m ≤ bit_scan_reverse m := by
      by_contra hgt
      have h1 : 2 ^ (bit_scan_reverse m + 1) ≤ 2 ^ bit_scan_forward m :=
        Nat.pow_le_pow_right (by decide) (by omega)
      have h2 : 2 ^ bit_scan_forward m * 1 ≤ 2 ^ bit_scan_forward m * q :=
        Nat.mul_le_mul_left _ (by omega)
      omega
    refine ⟨hle, ?_⟩
    constructor
    · intro heq
      rw [← heq, Nat.pow_succ] at hrlt
      have hq1 : q = 1 := by
        by_contra hne
        have h2 : 2 ^ bit_scan_forward m * 2 ≤ 2 ^ bit_scan_forward m * q :=
          Nat.mul_le_mul_left _ (by omega)
        omega
      rw [hq1, Nat.mul_one] at hfac
      rw [popcount_eq_naive m hm]
      nth_rewrite 1 [hfac]
      exact naive_popcount_two_pow _ hf64
    · intro h1
      by_contra hne
      rw [popcount_eq_naive m hm] at h1
      unfold naive_popcount at h1
      have hsub : ({bit_scan_forward m, bit_scan_reverse m} : Finset Nat)
          ⊆ (Finset.range 64).filter (fun i => m.testBit i = true) := by
        intro x hx
        rw [Finset.mem_insert, Finset.mem_singleton] at hx
        rw [Finset.mem_filter, Finset.mem_range]
        rcases hx with hx | hx
        · rw [hx]; exact ⟨hf64, hfset⟩
        · rw [hx]; exact ⟨hr64, hrset⟩
      have hcard := Finset.card_le_card hsub
      rw [Finset.card_pair hne, h1] at hcard
      omega

theorem scanners_popcount_agree_witness :
    0xB000 < 2 ^ 64 ∧
      ((bit_scan_forward 0xB000 = 64 ↔ bit_scan_reverse 0xB000 = 64)
        ∧ (bit_scan_reverse 0xB000 = 64 ↔ bitmask_is_empty 0xB000 = true)
        ∧ (bitmask_is_empty 0xB000 = true ↔ popcount 0xB000 = 0)
        ∧ (bitmask_is_full 0xB000 = true ↔ popcount 0xB000 = 64)
        ∧ (0xB000 ≠ 0 →
            bit_scan_forward 0xB000 ≤ bit_scan_reverse 0xB000
              ∧ (bit_scan_forward 0xB000 = bit_scan_reverse 0xB000 ↔ popcount 0xB000 = 1))) :=
  ⟨by decide, scanners_popcount_agree 0xB000 (by decide)⟩

end Bitmask
